import Mathlib

/-!
Verification of `printGZHeader.c` (awcoleman/PrintGZHeader).

The program scans a file made of concatenated gzip members.  For each member,
`get_header_for_zstream` drives the zlib decompression engine: one
`inflate(..., Z_BLOCK)` call parses the gzip container header, then a do/while
loop keeps calling `inflate(..., Z_NO_FLUSH)` (refilling the input buffer with
`fread` of `filesize` bytes and resetting the output buffer to
`OUTBUF_MULT * filesize` bytes) until the engine reports `Z_STREAM_END` or a
read returns zero bytes; the function returns `zs.total_in`, the number of
input bytes the engine consumed.  `main` loops over the file, calling
`get_header_for_zstream` at the current cursor and repositioning the cursor by
the returned byte count (`fseek(f, fposa+ret, SEEK_SET)`), until the cursor
reaches `filesize`.

The decompression engine (zlib's `inflate`) is an external collaborator; it is
modelled here by its documented contract, parametrised by an abstract
description of the gzip member it is decoding (`GzMember`): the engine consumes
member bytes in order, produces `produce n` cumulative output bytes after
consuming `n` member bytes, stops consuming when the output space is exhausted,
returns `Z_STREAM_END` exactly when the whole member (header + deflate body +
trailer) has been consumed, `Z_OK` when it made progress, and `Z_BUF_ERROR`
when no progress was possible.  `inflate(..., Z_BLOCK)` with the header request
installed stops right after the container header, populating the header record
(`done = 1`) when the buffered input covers the whole header, and leaves
`done = 0` when the input ran out mid-header.  The model presumes the engine is
fed the member's bytes in order, which holds on every run the theorems below
describe (in the program `main` always passes `filesize` = whole file length,
so the first `fread` already reads everything and no second non-empty buffer is
ever handed to the engine).

Loops are modelled with explicit fuel; `none` is the surrogate for
non-termination, and totality lemmas discharge it where the loops provably
terminate.
-/

namespace PrintGZHeader

/-- zlib return code `Z_OK`. -/
def Z_OK : Int := 0

/-- zlib return code `Z_STREAM_END`. -/
def Z_STREAM_END : Int := 1

/-- zlib return code `Z_DATA_ERROR`; `exit(Z_DATA_ERROR)` is the
"no data" (empty read) fatal path of `get_header_for_zstream` (line 104). -/
def Z_DATA_ERROR : Int := -3

/-- zlib return code `Z_BUF_ERROR`: `inflate` made no progress (no input left
and/or no output space).  It is negative, so the `if (ret < 0) exit(ret)` check
in the body loop (lines 148-151) treats it as fatal. -/
def Z_BUF_ERROR : Int := -5

/-- Output-buffer multiplier: `#define OUTBUF_MULT 5` (line 38); the output
buffer holds `OUTBUF_MULT * filesize` bytes (lines 59, 72, 163). -/
def OUTBUF_MULT : Nat := 5

/-- String buffer size: `#define STR_LEN 512` (line 40); `char zname[STR_LEN]`. -/
def STR_LEN : Nat := 512

/-- Maximum captured name length: `zhead.name_max = sizeof(zname) - 1` (line 90),
i.e. 511 usable bytes. -/
def name_max : Nat := STR_LEN - 1

/-- Abstract description of one gzip member, the unit the external
decompression engine decodes (spec section 6: RFC 1952 container).  Fields:
`hlen` is the byte length of the container header (10 fixed bytes plus the
flag-conditional extra/name/comment/hcrc fields); `compLen` is the member's
total on-disk byte length (header, deflate body and 8-byte trailer);
`produce n` is the cumulative number of decompressed output bytes the engine
has emitted once it has consumed the first `n` bytes of the member; `mtime` is
the MTIME header field; `fnameFlag` is the FNAME flag bit; `nameBytes` are the
bytes of the stored original file name (without its NUL terminator). -/
structure GzMember where
  hlen : Nat
  compLen : Nat
  produce : Nat → Nat
  mtime : Nat
  fnameFlag : Bool
  nameBytes : List Nat

/-- Well-formedness of a member description: the header is non-empty and is an
initial part of the member, and the cumulative output function is monotone over
the member (the engine never un-produces output).  Only the values of `produce`
up to `compLen` are ever consulted, so monotonicity is only required there,
keeping the predicate decidable. -/
def memberWF (m : GzMember) : Prop :=
  0 < m.hlen ∧ m.hlen ≤ m.compLen ∧
    ∀ i, i < m.compLen → m.produce i ≤ m.produce (i + 1)

instance (m : GzMember) : Decidable (memberWF m) := by
  unfold memberWF
  exact inferInstance

/-- Largest number of input bytes `c ≤ maxc` the engine can consume from
member position `pos` while keeping the output it must emit for them,
`prod (pos + c) - prod pos`, within the free output space `budget`.  This is
how a single `inflate` call picks how far to advance: it fills the output
buffer and stops. -/
def consumeMax (prod : Nat → Nat) (pos maxc budget : Nat) : Nat :=
  match maxc with
  | 0 => 0
  | k + 1 =>
    if prod (pos + (k + 1)) - prod pos ≤ budget then k + 1
    else consumeMax prod pos k budget

/-- Result of one `inflate` call: the zlib return code, the number of input
bytes consumed, and the number of output bytes produced. -/
structure InfRes where
  ret : Int
  consumed : Nat
  produced : Nat

/-- Number of member bytes a single `inflate` call consumes from position
`pos`: bounded by the buffered input and the member's remaining bytes, and
within that bound maximal subject to the output budget. -/
def infCons (m : GzMember) (pos availIn availOut : Nat) : Nat :=
  consumeMax m.produce pos (min availIn (m.compLen - pos)) availOut

/-- One `inflate(&zs, Z_NO_FLUSH)` call (line 147) under the engine contract:
with the engine standing at member position `pos`, `availIn` input bytes
buffered and `availOut` output bytes free, it consumes as many member bytes as
input and output allow; it returns `Z_STREAM_END` when this reaches the end of
the member, `Z_BUF_ERROR` when it could not move at all, and `Z_OK`
otherwise. -/
def inflateRun (m : GzMember) (pos availIn availOut : Nat) : InfRes :=
  if pos + infCons m pos availIn availOut = m.compLen then
    ⟨Z_STREAM_END, infCons m pos availIn availOut,
      m.produce (pos + infCons m pos availIn availOut) - m.produce pos⟩
  else if infCons m pos availIn availOut = 0 then ⟨Z_BUF_ERROR, 0, 0⟩
  else
    ⟨Z_OK, infCons m pos availIn availOut,
      m.produce (pos + infCons m pos availIn availOut) - m.produce pos⟩

/-- Decoded header fields as the per-member report prints them (lines
120-143): `time` is `zhead.time` (line 127), `name` is the captured
`zhead.name` (line 130) with `none` for an absent field, and `done` is
`zhead.done` (line 143).  When the header could not be completely parsed
(`done = 0`), `time` and `name` are not (fully) populated by the engine and are
modelled as `none`. -/
structure HeaderReport where
  time : Option Nat
  name : Option (List Nat)
  done : Nat
deriving DecidableEq

deriving instance DecidableEq for Except

/-- Result of one `get_header_for_zstream` call: `report` records whether (and
with what contents) the per-member header lines were printed, and `outcome` is
`some (Except.error e)` when the function called `exit(e)`,
`some (Except.ok (r, ended))` when it returned `r` (the final `zs.total_in`,
line 173) with `ended` the final value of `ret == Z_STREAM_END`, and `none`
when the body loop ran out of fuel. -/
structure GHResult where
  report : Option HeaderReport
  outcome : Option (Except Int (Nat × Bool))
deriving DecidableEq

/-- Body loop of `get_header_for_zstream` (lines 146-165), translated
step-for-step: call `inflate`, `exit(ret)` if `ret < 0`; refill the input
buffer with `fread(inbuf, 1, filesize, f)` (which yields
`min filesize (F - cursor)` bytes, `F` being the file length); break (and
return `zs.total_in`) if the read yielded nothing; otherwise reset the output
buffer to `OUTBUF_MULT * filesize` bytes and continue while
`ret != Z_STREAM_END`.  Note that the refill overwrites `zs.avail_in`, so any
bytes the engine left unconsumed in the previous buffer are dropped; `pos`
mirrors `zs.total_in`, the engine's count of consumed member bytes. -/
def ghLoop (m : GzMember) (filesize F : Nat) :
    Nat → Nat → Nat → Nat → Nat → Option (Except Int (Nat × Bool))
  | 0, _, _, _, _ => none
  | fuel + 1, pos, availIn, availOut, cursor =>
    let r := inflateRun m pos availIn availOut
    if r.ret < 0 then some (Except.error r.ret)
    else
      let pos' := pos + r.consumed
      let n := min filesize (F - cursor)
      if n = 0 then some (Except.ok (pos', r.ret == Z_STREAM_END))
      else if r.ret = Z_STREAM_END then some (Except.ok (pos', true))
      else ghLoop m filesize F fuel pos' n (OUTBUF_MULT * filesize) (cursor + n)

/-- Model of `get_header_for_zstream` (lines 42-176) decoding the member `m`
that starts at file offset `s` of a file of `F` bytes, with the `filesize`
parameter the program passes (in `main` it is always `F`).  Steps: the first
`fread` yields `n1 = min filesize (F - s)` bytes; if zero, `exit(Z_DATA_ERROR)`
(line 104) before anything is printed; otherwise `inflate(&zs, Z_BLOCK)`
(line 109) parses the header, consuming `min n1 hlen` bytes and completing it
(`done = 1`) exactly when `n1 ≥ hlen`; the header report lines are then printed
(lines 120-143) whatever `done` is, and the body loop runs with the output
budget `OUTBUF_MULT * filesize` installed at line 72. -/
def get_header_for_zstream (m : GzMember) (filesize F s : Nat) : GHResult :=
  let n1 := min filesize (F - s)
  if n1 = 0 then ⟨none, some (Except.error Z_DATA_ERROR)⟩
  else
    let hc := min n1 m.hlen
    let done : Nat := if m.hlen ≤ n1 then 1 else 0
    let rep : HeaderReport :=
      ⟨if done = 1 then some m.mtime else none,
       if done = 1 then
         (if m.fnameFlag then some (m.nameBytes.take name_max) else none)
       else none,
       done⟩
    ⟨some rep,
     ghLoop m filesize F (F + 2) hc (n1 - hc) (OUTBUF_MULT * filesize) (s + n1)⟩

/-- Record of one iteration of `main`'s scan loop (lines 211-222): `start` is
`fposa` (the printed "beginning of member" position, line 215), `consumed` is
the value `ret` returned by `get_header_for_zstream`, `next` is `fposb` after
`fseek(f, fposa+ret, SEEK_SET)` (line 217), and `printedEnd` is the printed
"end of member" value `ftell(f) - 1` (line 219). -/
structure ScanRec where
  start : Nat
  consumed : Nat
  next : Nat
  printedEnd : Int
deriving DecidableEq

/-- Scanner while-loop of `main` (lines 211-222).  `consume pos` models the
call `get_header_for_zstream(f, inname, loopctr, filesize)` with the file
cursor at `pos`: `none` means that call hung, `some (Except.error e)` that it
called `exit(e)`, and `some (Except.ok r)` that it returned `r`.  Since
`fseek` (line 217) clears the end-of-file indicator, the `!feof(f)` conjunct of
the loop condition is always true and the loop is governed by
`fposb != filesize` alone; fuel exhaustion (`none`) is the surrogate for the
loop running forever. -/
def scanLoop (consume : Nat → Option (Except Int Nat)) (filesize : Nat) :
    Nat → Nat → Option (Except Int (List ScanRec))
  | 0, _ => none
  | fuel + 1, pos =>
    if pos = filesize then some (Except.ok [])
    else
      match consume pos with
      | none => none
      | some (Except.error e) => some (Except.error e)
      | some (Except.ok r) =>
        match scanLoop consume filesize fuel (pos + r) with
        | none => none
        | some (Except.error e) => some (Except.error e)
        | some (Except.ok rest) =>
          some (Except.ok (⟨pos, r, pos + r, (pos : Int) + (r : Int) - 1⟩ :: rest))

/-- Total byte length of a file made of the concatenated members `ms`. -/
def fileLen (ms : List GzMember) : Nat := (ms.map GzMember.compLen).sum

/-- Member (if any) that starts exactly at byte offset `pos` of the
concatenation of `ms`. -/
def memberAt : List GzMember → Nat → Option GzMember
  | [], _ => none
  | m :: rest, pos =>
    if pos = 0 then some m
    else if pos < m.compLen then none
    else memberAt rest (pos - m.compLen)

/-- Behaviour of one `get_header_for_zstream` call on the file made of the
members `ms`, started at cursor `pos`, with `fread` chunk size `F` (in `main`
the chunk size `filesize` equals the file length).  At a member boundary the
engine decodes that member; anywhere else it is looking at the interior of a
member's deflate body, which is not a gzip stream, so the engine rejects it as
corrupt (`Z_DATA_ERROR`).  The returned value is the byte count the scanner
uses (`ret`); the end-of-stream flag is dropped, as `main` drops it. -/
def consumeOfFile (ms : List GzMember) (F pos : Nat) : Option (Except Int Nat) :=
  match memberAt ms pos with
  | none => some (Except.error Z_DATA_ERROR)
  | some m =>
    match (get_header_for_zstream m F F pos).outcome with
    | none => none
    | some (Except.error e) => some (Except.error e)
    | some (Except.ok (r, _)) => some (Except.ok r)

/-- Whole scan of `main` over the file made of the members `ms`:
`filesize = fileLen ms` (from `fstat`, line 206), cursor starting at 0, fuel
`fileLen ms + 1` (enough for one iteration per member, since every well-formed
member is at least one byte long). -/
def scanModel (ms : List GzMember) : Option (Except Int (List ScanRec)) :=
  scanLoop (consumeOfFile ms (fileLen ms)) (fileLen ms) (fileLen ms + 1) 0

/-- Process outcome of `main`: `exited e` models a call to `exit(e)`,
`returned c` models `return ret` (line 226) where `c = none` means `ret` was
never assigned (its value is read uninitialized), and `hung` models the scan
loop running forever. -/
inductive MainOut where
  | exited : Int → MainOut
  | returned : Option Int → MainOut
  | hung : MainOut
deriving DecidableEq

/-- Value of the variable `ret` after the scan loop: the byte count returned
by the last completed `get_header_for_zstream` call, or `none` (never
assigned) when the loop body never ran. -/
def lastConsumed (recs : List ScanRec) : Option Int :=
  match recs.getLast? with
  | none => none
  | some rec => some (rec.consumed : Int)

/-- Model of `main` (lines 178-227): `exit(1)` when the file cannot be opened
(lines 200-203, abstracted by the flag `openOk`); otherwise run the scan loop
and `return ret`. -/
def mainModel (openOk : Bool) (ms : List GzMember) : MainOut :=
  if openOk = false then MainOut.exited 1
  else
    match scanModel ms with
    | none => MainOut.hung
    | some (Except.error e) => MainOut.exited e
    | some (Except.ok recs) => MainOut.returned (lastConsumed recs)

/-- Expected scan records for the members `ms` laid out from offset `base`:
member `k` occupies `[startOfK, startOfK + compLen)`. -/
def memberRecs (base : Nat) : List GzMember → List ScanRec
  | [] => []
  | m :: rest =>
    ⟨base, m.compLen, base + m.compLen, (base : Int) + (m.compLen : Int) - 1⟩ ::
      memberRecs (base + m.compLen) rest

/-- Check that the records chain from `a` to `b`: each record starts where the
previous one ended, has a non-empty range, and the last one ends at `b`.
Together this says the ranges `[start, next)` are contiguous, non-overlapping
and cover `[a, b)`. -/
def recsChainB : Nat → Nat → List ScanRec → Bool
  | a, b, [] => decide (a = b)
  | a, b, r :: rest =>
    decide (r.start = a) && decide (a < r.next) && recsChainB r.next b rest

/-- Check only that each record starts where the previous one ended (the
internal cursor handed to the next iteration), with no coverage or
non-emptiness requirement. -/
def chainNextB : Nat → List ScanRec → Bool
  | _, [] => true
  | a, r :: rest => decide (r.start = a) && chainNextB r.next rest

/-- Concrete well-formed member used in witnesses: 10-byte header, 20 bytes on
disk, FNAME set with a 3-byte stored name, each body byte expanding to 2
output bytes (decompressed size 20). -/
def mA : GzMember := ⟨10, 20, fun n => 2 * (n - 10), 77, true, [97, 46, 116]⟩

/-- Concrete well-formed member used in witnesses: 10-byte header, 15 bytes on
disk, FNAME unset, decompressed size 5. -/
def mB : GzMember := ⟨10, 15, fun n => n - 10, 0, false, []⟩

/-- Concrete well-formed member with high expansion ratio: 10-byte header, 30
bytes on disk, each body byte expanding to 20 output bytes, so its decompressed
size (400) exceeds `OUTBUF_MULT` times the 30-byte file that contains just this
member.  Realisable as a gzip member whose deflate body is made of long
matches. -/
def mBig : GzMember := ⟨10, 30, fun n => (n - 10) * 20, 0, false, []⟩

/-! Basic facts about the engine step. -/

theorem consumeMax_le (prod : Nat → Nat) (pos budget : Nat) :
    ∀ maxc, consumeMax prod pos maxc budget ≤ maxc := by
  intro maxc
  induction maxc with
  | zero => simp [consumeMax]
  | succ k ih =>
    unfold consumeMax
    split
    · exact le_refl _
    · exact le_trans ih (Nat.le_succ k)

theorem consumeMax_budget (prod : Nat → Nat) (pos budget : Nat) :
    ∀ maxc, prod (pos + consumeMax prod pos maxc budget) - prod pos ≤ budget := by
  intro maxc
  induction maxc with
  | zero => simp [consumeMax]
  | succ k ih =>
    unfold consumeMax
    split
    · assumption
    · exact ih

theorem consumeMax_eq_of_le (prod : Nat → Nat) (pos budget maxc : Nat)
    (h : prod (pos + maxc) - prod pos ≤ budget) :
    consumeMax prod pos maxc budget = maxc := by
  cases maxc with
  | zero => rfl
  | succ k => unfold consumeMax; rw [if_pos h]

theorem produce_mono (m : GzMember) (hwf : memberWF m) :
    ∀ a b, a ≤ b → b ≤ m.compLen → m.produce a ≤ m.produce b := by
  obtain ⟨-, -, hstep⟩ := hwf
  intro a b hab hb
  induction hab with
  | refl => exact le_refl _
  | @step n hn ih =>
    exact le_trans (ih (by omega)) (hstep n (by omega))

theorem infCons_le_min (m : GzMember) (pos availIn availOut : Nat) :
    infCons m pos availIn availOut ≤ min availIn (m.compLen - pos) :=
  consumeMax_le m.produce pos availOut (min availIn (m.compLen - pos))

theorem infCons_budget (m : GzMember) (pos availIn availOut : Nat) :
    m.produce (pos + infCons m pos availIn availOut) - m.produce pos ≤ availOut :=
  consumeMax_budget m.produce pos availOut (min availIn (m.compLen - pos))

theorem infCons_full (m : GzMember) (pos availIn availOut : Nat)
    (h : m.produce (pos + min availIn (m.compLen - pos)) - m.produce pos ≤ availOut) :
    infCons m pos availIn availOut = min availIn (m.compLen - pos) :=
  consumeMax_eq_of_le m.produce pos availOut (min availIn (m.compLen - pos)) h

theorem inflateRun_eq_end (m : GzMember) (pos availIn availOut : Nat)
    (h : pos + infCons m pos availIn availOut = m.compLen) :
    inflateRun m pos availIn availOut =
      ⟨Z_STREAM_END, infCons m pos availIn availOut,
        m.produce (pos + infCons m pos availIn availOut) - m.produce pos⟩ := by
  unfold inflateRun
  rw [if_pos h]

theorem inflateRun_eq_buf (m : GzMember) (pos availIn availOut : Nat)
    (h : ¬ pos + infCons m pos availIn availOut = m.compLen)
    (hz : infCons m pos availIn availOut = 0) :
    inflateRun m pos availIn availOut = ⟨Z_BUF_ERROR, 0, 0⟩ := by
  unfold inflateRun
  rw [if_neg h, if_pos hz]

theorem inflateRun_eq_ok (m : GzMember) (pos availIn availOut : Nat)
    (h : ¬ pos + infCons m pos availIn availOut = m.compLen)
    (hz : ¬ infCons m pos availIn availOut = 0) :
    inflateRun m pos availIn availOut =
      ⟨Z_OK, infCons m pos availIn availOut,
        m.produce (pos + infCons m pos availIn availOut) - m.produce pos⟩ := by
  unfold inflateRun
  rw [if_neg h, if_neg hz]

theorem inflateRun_consumed_le_availIn (m : GzMember) (pos availIn availOut : Nat) :
    (inflateRun m pos availIn availOut).consumed ≤ availIn := by
  have h1 := infCons_le_min m pos availIn availOut
  have h2 := Nat.min_le_left availIn (m.compLen - pos)
  by_cases hEnd : pos + infCons m pos availIn availOut = m.compLen
  · rw [inflateRun_eq_end m pos availIn availOut hEnd]
    exact le_trans h1 h2
  · by_cases hz : infCons m pos availIn availOut = 0
    · rw [inflateRun_eq_buf m pos availIn availOut hEnd hz]
      exact Nat.zero_le _
    · rw [inflateRun_eq_ok m pos availIn availOut hEnd hz]
      exact le_trans h1 h2

theorem inflateRun_pos_le (m : GzMember) (pos availIn availOut : Nat)
    (h : pos ≤ m.compLen) :
    pos + (inflateRun m pos availIn availOut).consumed ≤ m.compLen := by
  have h1 := infCons_le_min m pos availIn availOut
  have h2 := Nat.min_le_right availIn (m.compLen - pos)
  by_cases hEnd : pos + infCons m pos availIn availOut = m.compLen
  · rw [inflateRun_eq_end m pos availIn availOut hEnd]
    simp only []
    omega
  · by_cases hz : infCons m pos availIn availOut = 0
    · rw [inflateRun_eq_buf m pos availIn availOut hEnd hz]
      simpa using h
    · rw [inflateRun_eq_ok m pos availIn availOut hEnd hz]
      simp only []
      omega

theorem inflateRun_produced_le (m : GzMember) (pos availIn availOut : Nat) :
    (inflateRun m pos availIn availOut).produced ≤ availOut := by
  have h1 := infCons_budget m pos availIn availOut
  by_cases hEnd : pos + infCons m pos availIn availOut = m.compLen
  · rw [inflateRun_eq_end m pos availIn availOut hEnd]
    exact h1
  · by_cases hz : infCons m pos availIn availOut = 0
    · rw [inflateRun_eq_buf m pos availIn availOut hEnd hz]
      exact Nat.zero_le _
    · rw [inflateRun_eq_ok m pos availIn availOut hEnd hz]
      exact h1

theorem inflateRun_end (m : GzMember) (pos availIn availOut : Nat)
    (h : (inflateRun m pos availIn availOut).ret = Z_STREAM_END) :
    pos + (inflateRun m pos availIn availOut).consumed = m.compLen := by
  by_cases hEnd : pos + infCons m pos availIn availOut = m.compLen
  · rw [inflateRun_eq_end m pos availIn availOut hEnd]
    exact hEnd
  · by_cases hz : infCons m pos availIn availOut = 0
    · rw [inflateRun_eq_buf m pos availIn availOut hEnd hz] at h
      exact absurd h (by decide)
    · rw [inflateRun_eq_ok m pos availIn availOut hEnd hz] at h
      simp only [] at h
      exact absurd h (by decide)

theorem inflateRun_ok (m : GzMember) (pos availIn availOut : Nat)
    (h : (inflateRun m pos availIn availOut).ret = Z_OK) :
    (inflateRun m pos availIn availOut).consumed ≠ 0 ∧
      pos + (inflateRun m pos availIn availOut).consumed ≠ m.compLen := by
  by_cases hEnd : pos + infCons m pos availIn availOut = m.compLen
  · rw [inflateRun_eq_end m pos availIn availOut hEnd] at h
    simp only [] at h
    exact absurd h (by decide)
  · by_cases hz : infCons m pos availIn availOut = 0
    · rw [inflateRun_eq_buf m pos availIn availOut hEnd hz] at h
      exact absurd h (by decide)
    · rw [inflateRun_eq_ok m pos availIn availOut hEnd hz]
      exact ⟨hz, hEnd⟩

theorem inflateRun_nonneg (m : GzMember) (pos availIn availOut : Nat)
    (h : ¬ (inflateRun m pos availIn availOut).ret < 0) :
    (inflateRun m pos availIn availOut).ret = Z_STREAM_END ∨
      (inflateRun m pos availIn availOut).ret = Z_OK := by
  by_cases hEnd : pos + infCons m pos availIn availOut = m.compLen
  · rw [inflateRun_eq_end m pos availIn availOut hEnd]
    exact Or.inl rfl
  · by_cases hz : infCons m pos availIn availOut = 0
    · rw [inflateRun_eq_buf m pos availIn availOut hEnd hz] at h
      exact absurd (by decide) h
    · rw [inflateRun_eq_ok m pos availIn availOut hEnd hz]
      exact Or.inr rfl

/-! Step equations and main lemmas for the body loop of
`get_header_for_zstream`. -/

theorem ghLoop_step_err (m : GzMember) (filesize F fuel pos availIn availOut cursor : Nat)
    (hret : (inflateRun m pos availIn availOut).ret < 0) :
    ghLoop m filesize F (fuel + 1) pos availIn availOut cursor =
      some (Except.error (inflateRun m pos availIn availOut).ret) := by
  simp only [ghLoop]
  rw [if_pos hret]

theorem ghLoop_step_end (m : GzMember) (filesize F fuel pos availIn availOut cursor : Nat)
    (hret : (inflateRun m pos availIn availOut).ret = Z_STREAM_END) :
    ghLoop m filesize F (fuel + 1) pos availIn availOut cursor =
      some (Except.ok (pos + (inflateRun m pos availIn availOut).consumed, true)) := by
  simp only [ghLoop]
  rw [hret]
  rw [if_neg (by decide : ¬ Z_STREAM_END < (0 : Int))]
  by_cases hn : min filesize (F - cursor) = 0
  · rw [if_pos hn]
    simp
  · rw [if_neg hn, if_pos rfl]

theorem ghLoop_step_break (m : GzMember) (filesize F fuel pos availIn availOut cursor : Nat)
    (hret : (inflateRun m pos availIn availOut).ret = Z_OK)
    (hn : min filesize (F - cursor) = 0) :
    ghLoop m filesize F (fuel + 1) pos availIn availOut cursor =
      some (Except.ok (pos + (inflateRun m pos availIn availOut).consumed, false)) := by
  simp only [ghLoop]
  rw [hret]
  rw [if_neg (by decide : ¬ Z_OK < (0 : Int))]
  rw [if_pos hn]
  rw [(by decide : (Z_OK == Z_STREAM_END) = false)]

theorem ghLoop_step_rec (m : GzMember) (filesize F fuel pos availIn availOut cursor : Nat)
    (hret : (inflateRun m pos availIn availOut).ret = Z_OK)
    (hn : ¬ min filesize (F - cursor) = 0) :
    ghLoop m filesize F (fuel + 1) pos availIn availOut cursor =
      ghLoop m filesize F fuel (pos + (inflateRun m pos availIn availOut).consumed)
        (min filesize (F - cursor)) (OUTBUF_MULT * filesize)
        (cursor + min filesize (F - cursor)) := by
  simp only [ghLoop]
  rw [hret]
  rw [if_neg (by decide : ¬ Z_OK < (0 : Int))]
  rw [if_neg hn]
  rw [if_neg (by decide : ¬ Z_OK = Z_STREAM_END)]

theorem ghLoop_ended_eq (m : GzMember) (filesize F : Nat) :
    ∀ fuel pos availIn availOut cursor r,
      pos ≤ m.compLen →
      ghLoop m filesize F fuel pos availIn availOut cursor =
        some (Except.ok (r, true)) →
      r = m.compLen := by
  intro fuel
  induction fuel with
  | zero =>
    intro pos availIn availOut cursor r _ h
    simp [ghLoop] at h
  | succ k ih =>
    intro pos availIn availOut cursor r hpos h
    by_cases h0 : (inflateRun m pos availIn availOut).ret < 0
    · rw [ghLoop_step_err m filesize F k pos availIn availOut cursor h0] at h
      simp at h
    · rcases inflateRun_nonneg m pos availIn availOut h0 with hE | hO
      · rw [ghLoop_step_end m filesize F k pos availIn availOut cursor hE] at h
        have := inflateRun_end m pos availIn availOut hE
        simp only [Option.some.injEq, Except.ok.injEq, Prod.mk.injEq] at h
        omega
      · by_cases hn : min filesize (F - cursor) = 0
        · rw [ghLoop_step_break m filesize F k pos availIn availOut cursor hO hn] at h
          simp at h
        · rw [ghLoop_step_rec m filesize F k pos availIn availOut cursor hO hn] at h
          exact ih _ _ _ _ r (inflateRun_pos_le m pos availIn availOut hpos) h

theorem ghLoop_total (m : GzMember) (filesize F : Nat) (hfs : 1 ≤ filesize) :
    ∀ fuel pos availIn availOut cursor,
      F - cursor < fuel →
      ghLoop m filesize F fuel pos availIn availOut cursor ≠ none := by
  intro fuel
  induction fuel with
  | zero =>
    intro pos availIn availOut cursor hf
    omega
  | succ k ih =>
    intro pos availIn availOut cursor hf
    by_cases h0 : (inflateRun m pos availIn availOut).ret < 0
    · rw [ghLoop_step_err m filesize F k pos availIn availOut cursor h0]
      simp
    · rcases inflateRun_nonneg m pos availIn availOut h0 with hE | hO
      · rw [ghLoop_step_end m filesize F k pos availIn availOut cursor hE]
        simp
      · by_cases hn : min filesize (F - cursor) = 0
        · rw [ghLoop_step_break m filesize F k pos availIn availOut cursor hO hn]
          simp
        · rw [ghLoop_step_rec m filesize F k pos availIn availOut cursor hO hn]
          exact ih _ _ _ _ (by omega)

theorem ghLoop_bounds (m : GzMember) (filesize F : Nat) :
    ∀ fuel pos availIn availOut cursor r e,
      ghLoop m filesize F fuel pos availIn availOut cursor =
        some (Except.ok (r, e)) →
      pos ≤ r ∧ r ≤ pos + availIn + (F - cursor) := by
  intro fuel
  induction fuel with
  | zero =>
    intro pos availIn availOut cursor r e h
    simp [ghLoop] at h
  | succ k ih =>
    intro pos availIn availOut cursor r e h
    have hc := inflateRun_consumed_le_availIn m pos availIn availOut
    by_cases h0 : (inflateRun m pos availIn availOut).ret < 0
    · rw [ghLoop_step_err m filesize F k pos availIn availOut cursor h0] at h
      simp at h
    · rcases inflateRun_nonneg m pos availIn availOut h0 with hE | hO
      · rw [ghLoop_step_end m filesize F k pos availIn availOut cursor hE] at h
        simp only [Option.some.injEq, Except.ok.injEq, Prod.mk.injEq] at h
        omega
      · by_cases hn : min filesize (F - cursor) = 0
        · rw [ghLoop_step_break m filesize F k pos availIn availOut cursor hO hn] at h
          simp only [Option.some.injEq, Except.ok.injEq, Prod.mk.injEq] at h
          omega
        · rw [ghLoop_step_rec m filesize F k pos availIn availOut cursor hO hn] at h
          have := ih _ _ _ _ r e h
          omega

theorem ghLoop_complete (m : GzMember) (filesize F : Nat)
    (hwf : memberWF m)
    (hb : m.produce m.compLen ≤ OUTBUF_MULT * filesize)
    (hfs : 1 ≤ filesize) :
    ∀ fuel pos availIn cursor,
      pos ≤ m.compLen →
      m.compLen ≤ pos + availIn + (F - cursor) →
      (pos < m.compLen → 0 < availIn) →
      cursor ≤ F →
      F - cursor < fuel →
      ghLoop m filesize F fuel pos availIn (OUTBUF_MULT * filesize) cursor =
        some (Except.ok (m.compLen, true)) := by
  intro fuel
  induction fuel with
  | zero =>
    intro pos availIn cursor _ _ _ _ hf
    omega
  | succ k ih =>
    intro pos availIn cursor hpos hsupply hin hcur hf
    have hminr := Nat.min_le_right availIn (m.compLen - pos)
    have hminl := Nat.min_le_left availIn (m.compLen - pos)
    have hca : infCons m pos availIn (OUTBUF_MULT * filesize) =
        min availIn (m.compLen - pos) := by
      apply infCons_full
      have h1 : pos + min availIn (m.compLen - pos) ≤ m.compLen := by omega
      have h2 := produce_mono m hwf (pos + min availIn (m.compLen - pos)) m.compLen
        h1 (le_refl m.compLen)
      omega
    by_cases hEnd : pos + infCons m pos availIn (OUTBUF_MULT * filesize) = m.compLen
    · have hret : (inflateRun m pos availIn (OUTBUF_MULT * filesize)).ret = Z_STREAM_END := by
        rw [inflateRun_eq_end m pos availIn (OUTBUF_MULT * filesize) hEnd]
      have hcons : (inflateRun m pos availIn (OUTBUF_MULT * filesize)).consumed =
          infCons m pos availIn (OUTBUF_MULT * filesize) := by
        rw [inflateRun_eq_end m pos availIn (OUTBUF_MULT * filesize) hEnd]
      rw [ghLoop_step_end m filesize F k pos availIn (OUTBUF_MULT * filesize) cursor hret]
      rw [hcons, hEnd]
    · have hplt : pos < m.compLen := by omega
      have hain : 0 < availIn := hin hplt
      have hz : ¬ infCons m pos availIn (OUTBUF_MULT * filesize) = 0 := by omega
      have hret : (inflateRun m pos availIn (OUTBUF_MULT * filesize)).ret = Z_OK := by
        rw [inflateRun_eq_ok m pos availIn (OUTBUF_MULT * filesize) hEnd hz]
      have hcons : (inflateRun m pos availIn (OUTBUF_MULT * filesize)).consumed =
          infCons m pos availIn (OUTBUF_MULT * filesize) := by
        rw [inflateRun_eq_ok m pos availIn (OUTBUF_MULT * filesize) hEnd hz]
      have hfull : infCons m pos availIn (OUTBUF_MULT * filesize) = availIn := by omega
      have hn : ¬ min filesize (F - cursor) = 0 := by omega
      rw [ghLoop_step_rec m filesize F k pos availIn (OUTBUF_MULT * filesize) cursor hret hn]
      exact ih _ _ _ (by omega) (by omega) (by omega) (by omega) (by omega)

/-! Equations and main lemmas for `get_header_for_zstream`. -/

theorem gh_empty (m : GzMember) (filesize F s : Nat)
    (h : min filesize (F - s) = 0) :
    get_header_for_zstream m filesize F s =
      ⟨none, some (Except.error Z_DATA_ERROR)⟩ := by
  simp only [get_header_for_zstream]
  rw [if_pos h]

theorem gh_eq_full (m : GzMember) (filesize F s : Nat)
    (hn : ¬ min filesize (F - s) = 0)
    (hh : m.hlen ≤ min filesize (F - s)) :
    get_header_for_zstream m filesize F s =
      ⟨some ⟨some m.mtime,
             if m.fnameFlag then some (m.nameBytes.take name_max) else none, 1⟩,
       ghLoop m filesize F (F + 2) m.hlen (min filesize (F - s) - m.hlen)
         (OUTBUF_MULT * filesize) (s + min filesize (F - s))⟩ := by
  simp only [get_header_for_zstream]
  rw [if_neg hn]
  rw [if_pos hh]
  rw [Nat.min_eq_right hh]
  simp

theorem gh_eq_part (m : GzMember) (filesize F s : Nat)
    (hn : ¬ min filesize (F - s) = 0)
    (hh : ¬ m.hlen ≤ min filesize (F - s)) :
    get_header_for_zstream m filesize F s =
      ⟨some ⟨none, none, 0⟩,
       ghLoop m filesize F (F + 2) (min filesize (F - s)) 0
         (OUTBUF_MULT * filesize) (s + min filesize (F - s))⟩ := by
  simp only [get_header_for_zstream]
  rw [if_neg hn]
  rw [if_neg hh]
  rw [Nat.min_eq_left (le_of_not_le hh)]
  simp

theorem gh_complete (m : GzMember) (filesize F s : Nat)
    (hwf : memberWF m)
    (hb : m.produce m.compLen ≤ OUTBUF_MULT * filesize)
    (hfs : m.hlen < filesize ∨ m.compLen ≤ filesize)
    (hfit : s + m.compLen ≤ F) :
    (get_header_for_zstream m filesize F s).outcome =
      some (Except.ok (m.compLen, true)) := by
  have hh0 : 0 < m.hlen := hwf.1
  have hhc : m.hlen ≤ m.compLen := hwf.2.1
  have hFs : m.compLen ≤ F - s := by omega
  have hfs1 : 1 ≤ filesize := by rcases hfs with h | h <;> omega
  have hn1h : m.hlen ≤ min filesize (F - s) := by rcases hfs with h | h <;> omega
  have hn1str : m.hlen < m.compLen → m.hlen < min filesize (F - s) := by
    rcases hfs with h | h <;> omega
  have hn : ¬ min filesize (F - s) = 0 := by omega
  rw [gh_eq_full m filesize F s hn hn1h]
  exact ghLoop_complete m filesize F hwf hb hfs1 (F + 2) m.hlen
    (min filesize (F - s) - m.hlen) (s + min filesize (F - s))
    hhc (by omega) (by omega) (by omega) (by omega)

/-! Lemmas about files as member lists and about the scanner loop. -/

theorem fileLen_cons (m : GzMember) (ms : List GzMember) :
    fileLen (m :: ms) = m.compLen + fileLen ms := by
  simp [fileLen]

theorem fileLen_append (a b : List GzMember) :
    fileLen (a ++ b) = fileLen a + fileLen b := by
  simp [fileLen]

theorem memberAt_append (pre : List GzMember) (m : GzMember) (post : List GzMember)
    (hpre : ∀ p ∈ pre, 0 < p.compLen) :
    memberAt (pre ++ m :: post) (fileLen pre) = some m := by
  induction pre with
  | nil => simp [memberAt, fileLen]
  | cons q pre ih =>
    have hq : 0 < q.compLen := hpre q (by simp)
    rw [List.cons_append, fileLen_cons]
    simp only [memberAt]
    rw [if_neg (by omega : ¬ q.compLen + fileLen pre = 0)]
    rw [if_neg (by omega : ¬ q.compLen + fileLen pre < q.compLen)]
    rw [(by omega : q.compLen + fileLen pre - q.compLen = fileLen pre)]
    exact ih (fun p hp => hpre p (by simp [hp]))

theorem memberAt_mem (ms : List GzMember) :
    ∀ pos m, memberAt ms pos = some m → m ∈ ms := by
  induction ms with
  | nil => intro pos m h; simp [memberAt] at h
  | cons q rest ih =>
    intro pos m h
    simp only [memberAt] at h
    split at h
    · simp only [Option.some.injEq] at h
      rw [← h]
      exact List.mem_cons_self q rest
    · split at h
      · simp at h
      · exact List.mem_cons_of_mem q (ih _ m h)

theorem consumeOfFile_boundary (ms : List GzMember) (F pos : Nat) (m : GzMember)
    (hmem : memberAt ms pos = some m)
    (hgh : (get_header_for_zstream m F F pos).outcome =
      some (Except.ok (m.compLen, true))) :
    consumeOfFile ms F pos = some (Except.ok m.compLen) := by
  unfold consumeOfFile
  rw [hmem]
  simp only []
  rw [hgh]

theorem scanLoop_members (msAll : List GzMember)
    (hwf : ∀ m ∈ msAll, memberWF m)
    (hb : ∀ m ∈ msAll, m.produce m.compLen ≤ OUTBUF_MULT * fileLen msAll) :
    ∀ post pre fuel, pre ++ post = msAll → post.length < fuel →
      scanLoop (consumeOfFile msAll (fileLen msAll)) (fileLen msAll) fuel (fileLen pre) =
        some (Except.ok (memberRecs (fileLen pre) post)) := by
  intro post
  induction post with
  | nil =>
    intro pre fuel hsplit hfuel
    cases fuel with
    | zero => omega
    | succ k =>
      have hstop : fileLen pre = fileLen msAll := by
        rw [← hsplit, fileLen_append]
        simp [fileLen]
      simp only [scanLoop]
      rw [if_pos hstop]
      simp [memberRecs]
  | cons m rest ih =>
    intro pre fuel hsplit hfuel
    cases fuel with
    | zero => omega
    | succ k =>
      have hm : m ∈ msAll := by rw [← hsplit]; simp
      have hwm := hwf m hm
      have hh0 : 0 < m.hlen := hwm.1
      have hhc : m.hlen ≤ m.compLen := hwm.2.1
      have hls : fileLen msAll = fileLen pre + (m.compLen + fileLen rest) := by
        rw [← hsplit, fileLen_append, fileLen_cons]
      have hpos : ¬ fileLen pre = fileLen msAll := by omega
      have hmemAt : memberAt msAll (fileLen pre) = some m := by
        rw [← hsplit]
        exact memberAt_append pre m rest (fun p hp => by
          have := (hwf p (by rw [← hsplit]; simp [hp])).1
          have := (hwf p (by rw [← hsplit]; simp [hp])).2.1
          omega)
      have hgh := gh_complete m (fileLen msAll) (fileLen msAll) (fileLen pre)
        hwm (hb m hm) (Or.inr (by omega)) (by omega)
      have hcons := consumeOfFile_boundary msAll (fileLen msAll) (fileLen pre) m
        hmemAt hgh
      simp only [scanLoop]
      rw [if_neg hpos]
      rw [hcons]
      dsimp only
      have hfl : fileLen (pre ++ [m]) = fileLen pre + m.compLen := by
        rw [fileLen_append, fileLen_cons]
        simp [fileLen]
      have hrec := ih (pre ++ [m]) k (by rw [← hsplit]; simp) (by
        simp only [List.length_cons] at hfuel; omega)
      rw [hfl] at hrec
      rw [hrec]
      dsimp only
      simp [memberRecs]

theorem scanLoop_total (consume : Nat → Option (Except Int Nat)) (F : Nat)
    (hc : ∀ pos, pos < F → consume pos ≠ none ∧
      ∀ r, consume pos = some (Except.ok r) → 1 ≤ r ∧ pos + r ≤ F) :
    ∀ fuel pos, pos ≤ F → F - pos < fuel →
      scanLoop consume F fuel pos ≠ none := by
  intro fuel
  induction fuel with
  | zero =>
    intro pos h1 h2
    omega
  | succ k ih =>
    intro pos h1 h2
    by_cases hstop : pos = F
    · simp only [scanLoop]
      rw [if_pos hstop]
      simp
    · have hlt : pos < F := by omega
      obtain ⟨hnn, hok⟩ := hc pos hlt
      simp only [scanLoop]
      rw [if_neg hstop]
      cases hcp : consume pos with
      | none => exact absurd hcp hnn
      | some v =>
        cases v with
        | error e => simp
        | ok r =>
          have hr := hok r hcp
          have hrec := ih (pos + r) (by omega) (by omega)
          cases hsl : scanLoop consume F k (pos + r) with
          | none => exact absurd hsl hrec
          | some w =>
            cases w with
            | error e => simp [hsl]
            | ok rest => simp [hsl]

theorem scanLoop_shape (consume : Nat → Option (Except Int Nat)) (F : Nat) :
    ∀ fuel pos recs,
      scanLoop consume F fuel pos = some (Except.ok recs) →
      chainNextB pos recs = true ∧
        ∀ rec ∈ recs, rec.next = rec.start + rec.consumed ∧
          rec.printedEnd = (rec.start : Int) + (rec.consumed : Int) - 1 := by
  intro fuel
  induction fuel with
  | zero =>
    intro pos recs h
    simp [scanLoop] at h
  | succ k ih =>
    intro pos recs h
    simp only [scanLoop] at h
    split at h
    · simp only [Option.some.injEq, Except.ok.injEq] at h
      subst h
      exact ⟨by simp [chainNextB], by simp⟩
    · cases hcp : consume pos with
      | none => rw [hcp] at h; simp at h
      | some v =>
        rw [hcp] at h
        cases v with
        | error e => simp at h
        | ok r =>
          dsimp only at h
          cases hsl : scanLoop consume F k (pos + r) with
          | none => rw [hsl] at h; simp at h
          | some w =>
            rw [hsl] at h
            cases w with
            | error e => simp at h
            | ok rest =>
              simp only [Option.some.injEq, Except.ok.injEq] at h
              subst h
              have hih := ih (pos + r) rest hsl
              refine ⟨?_, ?_⟩
              · simp [chainNextB, hih.1]
              · intro rec hrec
                rcases List.mem_cons.1 hrec with hr | hr
                · subst hr
                  constructor
                  · rfl
                  · rfl
                · exact hih.2 rec hr

/-! Bounds, totality and error-sign lemmas for the composed model. -/

theorem gh_ok_bounds (m : GzMember) (filesize F s r : Nat) (e : Bool)
    (hh0 : 0 < m.hlen)
    (h : (get_header_for_zstream m filesize F s).outcome = some (Except.ok (r, e))) :
    1 ≤ r ∧ r ≤ F - s := by
  by_cases hn : min filesize (F - s) = 0
  · rw [gh_empty m filesize F s hn] at h
    simp at h
  · by_cases hh : m.hlen ≤ min filesize (F - s)
    · rw [gh_eq_full m filesize F s hn hh] at h
      dsimp only at h
      have hb := ghLoop_bounds m filesize F (F + 2) m.hlen
        (min filesize (F - s) - m.hlen) (OUTBUF_MULT * filesize)
        (s + min filesize (F - s)) r e h
      omega
    · rw [gh_eq_part m filesize F s hn hh] at h
      dsimp only at h
      have hb := ghLoop_bounds m filesize F (F + 2) (min filesize (F - s)) 0
        (OUTBUF_MULT * filesize) (s + min filesize (F - s)) r e h
      omega

theorem gh_total (m : GzMember) (filesize F s : Nat) (hfs : 1 ≤ filesize) :
    (get_header_for_zstream m filesize F s).outcome ≠ none := by
  by_cases hn : min filesize (F - s) = 0
  · rw [gh_empty m filesize F s hn]
    simp
  · by_cases hh : m.hlen ≤ min filesize (F - s)
    · rw [gh_eq_full m filesize F s hn hh]
      exact ghLoop_total m filesize F hfs (F + 2) _ _ _ _ (by omega)
    · rw [gh_eq_part m filesize F s hn hh]
      exact ghLoop_total m filesize F hfs (F + 2) _ _ _ _ (by omega)

theorem ghLoop_error_neg (m : GzMember) (filesize F : Nat) :
    ∀ fuel pos availIn availOut cursor e,
      ghLoop m filesize F fuel pos availIn availOut cursor =
        some (Except.error e) → e < 0 := by
  intro fuel
  induction fuel with
  | zero =>
    intro pos availIn availOut cursor e h
    simp [ghLoop] at h
  | succ k ih =>
    intro pos availIn availOut cursor e h
    by_cases h0 : (inflateRun m pos availIn availOut).ret < 0
    · rw [ghLoop_step_err m filesize F k pos availIn availOut cursor h0] at h
      simp only [Option.some.injEq, Except.error.injEq] at h
      omega
    · rcases inflateRun_nonneg m pos availIn availOut h0 with hE | hO
      · rw [ghLoop_step_end m filesize F k pos availIn availOut cursor hE] at h
        simp at h
      · by_cases hn : min filesize (F - cursor) = 0
        · rw [ghLoop_step_break m filesize F k pos availIn availOut cursor hO hn] at h
          simp at h
        · rw [ghLoop_step_rec m filesize F k pos availIn availOut cursor hO hn] at h
          exact ih _ _ _ _ e h

theorem gh_error_neg (m : GzMember) (filesize F s : Nat) (e : Int)
    (h : (get_header_for_zstream m filesize F s).outcome = some (Except.error e)) :
    e < 0 := by
  by_cases hn : min filesize (F - s) = 0
  · rw [gh_empty m filesize F s hn] at h
    simp only [Option.some.injEq, Except.error.injEq] at h
    rw [← h]
    decide
  · by_cases hh : m.hlen ≤ min filesize (F - s)
    · rw [gh_eq_full m filesize F s hn hh] at h
      dsimp only at h
      exact ghLoop_error_neg m filesize F (F + 2) _ _ _ _ e h
    · rw [gh_eq_part m filesize F s hn hh] at h
      dsimp only at h
      exact ghLoop_error_neg m filesize F (F + 2) _ _ _ _ e h

theorem consumeOfFile_ok_bounds (ms : List GzMember) (F pos r : Nat)
    (hwf : ∀ m ∈ ms, memberWF m)
    (h : consumeOfFile ms F pos = some (Except.ok r)) :
    1 ≤ r ∧ pos + r ≤ F := by
  unfold consumeOfFile at h
  cases hma : memberAt ms pos with
  | none =>
    rw [hma] at h
    simp at h
  | some m =>
    rw [hma] at h
    dsimp only at h
    cases hgo : (get_header_for_zstream m F F pos).outcome with
    | none =>
      rw [hgo] at h
      simp at h
    | some v =>
      rw [hgo] at h
      cases v with
      | error e => simp at h
      | ok p =>
        obtain ⟨r', e'⟩ := p
        dsimp only at h
        simp only [Option.some.injEq, Except.ok.injEq] at h
        subst h
        have hb := gh_ok_bounds m F F pos r' e'
          (hwf m (memberAt_mem ms pos m hma)).1 hgo
        omega

theorem consumeOfFile_total (ms : List GzMember) (F pos : Nat) (hF : 1 ≤ F) :
    consumeOfFile ms F pos ≠ none := by
  unfold consumeOfFile
  cases hma : memberAt ms pos with
  | none => simp
  | some m =>
    dsimp only
    cases hgo : (get_header_for_zstream m F F pos).outcome with
    | none => exact absurd hgo (gh_total m F F pos hF)
    | some v =>
      cases v with
      | error e => simp
      | ok p =>
        obtain ⟨r, e⟩ := p
        simp

theorem consumeOfFile_error_neg (ms : List GzMember) (F pos : Nat) (e : Int)
    (h : consumeOfFile ms F pos = some (Except.error e)) : e < 0 := by
  unfold consumeOfFile at h
  cases hma : memberAt ms pos with
  | none =>
    rw [hma] at h
    simp only [Option.some.injEq, Except.error.injEq] at h
    rw [← h]
    decide
  | some m =>
    rw [hma] at h
    dsimp only at h
    cases hgo : (get_header_for_zstream m F F pos).outcome with
    | none =>
      rw [hgo] at h
      simp at h
    | some v =>
      rw [hgo] at h
      cases v with
      | error e' =>
        dsimp only at h
        simp only [Option.some.injEq, Except.error.injEq] at h
        rw [← h]
        exact gh_error_neg m F F pos e' hgo
      | ok p =>
        obtain ⟨r, e'⟩ := p
        simp at h

theorem scanLoop_error_neg (consume : Nat → Option (Except Int Nat)) (F : Nat)
    (hc : ∀ pos e, consume pos = some (Except.error e) → e < 0) :
    ∀ fuel pos e, scanLoop consume F fuel pos = some (Except.error e) → e < 0 := by
  intro fuel
  induction fuel with
  | zero =>
    intro pos e h
    simp [scanLoop] at h
  | succ k ih =>
    intro pos e h
    simp only [scanLoop] at h
    split at h
    · simp at h
    · cases hcp : consume pos with
      | none =>
        rw [hcp] at h
        simp at h
      | some v =>
        rw [hcp] at h
        cases v with
        | error e' =>
          dsimp only at h
          simp only [Option.some.injEq, Except.error.injEq] at h
          rw [← h]
          exact hc pos e' hcp
        | ok r =>
          dsimp only at h
          cases hsl : scanLoop consume F k (pos + r) with
          | none =>
            rw [hsl] at h
            simp at h
          | some w =>
            rw [hsl] at h
            cases w with
            | error e' =>
              dsimp only at h
              simp only [Option.some.injEq, Except.error.injEq] at h
              rw [← h]
              exact ih (pos + r) e' hsl
            | ok rest => simp at h

theorem memberRecs_length : ∀ (post : List GzMember) (base : Nat),
    (memberRecs base post).length = post.length := by
  intro post
  induction post with
  | nil => intro base; rfl
  | cons m rest ih =>
    intro base
    simp [memberRecs, ih]

theorem recsChainB_memberRecs : ∀ (post : List GzMember) (base : Nat),
    (∀ m ∈ post, 0 < m.compLen) →
    recsChainB base (base + fileLen post) (memberRecs base post) = true := by
  intro post
  induction post with
  | nil =>
    intro base h
    simp [recsChainB, fileLen]
  | cons m rest ih =>
    intro base h
    have h0 : 0 < m.compLen := h m (by simp)
    simp only [memberRecs, recsChainB]
    rw [fileLen_cons]
    rw [(by omega : base + (m.compLen + fileLen rest) = base + m.compLen + fileLen rest)]
    have hih := ih (base + m.compLen) (fun p hp => h p (by simp [hp]))
    simp [hih]
    omega

theorem length_le_fileLen : ∀ (ms : List GzMember),
    (∀ m ∈ ms, 0 < m.compLen) → ms.length ≤ fileLen ms := by
  intro ms
  induction ms with
  | nil =>
    intro h
    simp [fileLen]
  | cons m rest ih =>
    intro h
    rw [fileLen_cons]
    have h0 := h m (by simp)
    have := ih (fun p hp => h p (by simp [hp]))
    simp only [List.length_cons]
    omega

/-! Claim theorems. -/

/-- C1 (counterexample): the claim fails as stated.  `mBig` is a well-formed
gzip member whose decompressed size (400) exceeds `OUTBUF_MULT * fileLength`
(150): the single `inflate` call fills the output buffer and stops 13 bytes
short, the following `fread` returns 0, `get_header_for_zstream` returns 17
instead of 30, and the scanner then restarts mid-member and dies with
`Z_DATA_ERROR` — it does not report one member covering `[0, 30)`. -/
theorem c1_counterexample :
    memberWF mBig ∧ fileLen [mBig] = 30 ∧
      scanModel [mBig] = some (Except.error Z_DATA_ERROR) ∧
      scanModel [mBig] ≠ some (Except.ok (memberRecs 0 [mBig])) :=
  ⟨by decide, by decide, by decide, by decide⟩

/-- C1 (amended): for every valid file that is the concatenation of N
well-formed gzip members, each of whose decompressed size fits the program's
output budget of `OUTBUF_MULT * fileLength` bytes, the scanner reports exactly
N members whose `[start, next)` ranges are contiguous, non-overlapping and
cover `[0, fileLength)` (so for a single-member file the sole member has
`start = 0` and `next = fileLength`). -/
theorem c1_scanner_reports_members (ms : List GzMember)
    (hwf : ∀ m ∈ ms, memberWF m)
    (hb : ∀ m ∈ ms, m.produce m.compLen ≤ OUTBUF_MULT * fileLen ms) :
    scanModel ms = some (Except.ok (memberRecs 0 ms)) ∧
      (memberRecs 0 ms).length = ms.length ∧
      recsChainB 0 (fileLen ms) (memberRecs 0 ms) = true := by
  have hpos : ∀ m ∈ ms, 0 < m.compLen := fun m hm => by
    have h1 := (hwf m hm).1
    have h2 := (hwf m hm).2.1
    omega
  have hlen := length_le_fileLen ms hpos
  refine ⟨?_, memberRecs_length ms 0, ?_⟩
  · unfold scanModel
    have h := scanLoop_members ms hwf hb ms [] (fileLen ms + 1) (by simp) (by omega)
    exact h
  · have h := recsChainB_memberRecs ms 0 hpos
    simpa using h

/-- C1 (witness): a concrete two-member file on which the amended claim's
hypotheses hold and the scanner reports both members with contiguous covering
ranges. -/
theorem c1_witness :
    (∀ m ∈ [mA, mB], memberWF m) ∧
      (∀ m ∈ [mA, mB], m.produce m.compLen ≤ OUTBUF_MULT * fileLen [mA, mB]) ∧
      scanModel [mA, mB] = some (Except.ok (memberRecs 0 [mA, mB])) ∧
      (memberRecs 0 [mA, mB]).length = 2 ∧
      recsChainB 0 (fileLen [mA, mB]) (memberRecs 0 [mA, mB]) = true := by
  have h1 : ∀ m ∈ [mA, mB], memberWF m := by decide
  have h2 : ∀ m ∈ [mA, mB], m.produce m.compLen ≤ OUTBUF_MULT * fileLen [mA, mB] := by
    decide
  have h := c1_scanner_reports_members [mA, mB] h1 h2
  exact ⟨h1, h2, h.1, h.2.1, h.2.2⟩

/-- C2: whenever `get_header_for_zstream` returns normally with its final
`ret` equal to `Z_STREAM_END` (the loop completed the member), the returned
value — the engine's cumulative input count `zs.total_in` — equals the
member's total on-disk length, for every chunk size, file length and start
offset, hence independently of how many `fread` calls were needed and of how
many bytes were over-read past the member's end. -/
theorem c2_total_in_is_member_length (m : GzMember) (filesize F s r : Nat)
    (hwf : memberWF m)
    (h : (get_header_for_zstream m filesize F s).outcome =
      some (Except.ok (r, true))) :
    r = m.compLen := by
  by_cases hn : min filesize (F - s) = 0
  · rw [gh_empty m filesize F s hn] at h
    simp at h
  · by_cases hh : m.hlen ≤ min filesize (F - s)
    · rw [gh_eq_full m filesize F s hn hh] at h
      dsimp only at h
      exact ghLoop_ended_eq m filesize F (F + 2) m.hlen _ _ _ r hwf.2.1 h
    · rw [gh_eq_part m filesize F s hn hh] at h
      dsimp only at h
      refine ghLoop_ended_eq m filesize F (F + 2) (min filesize (F - s)) _ _ _ r ?_ h
      have h1 := le_of_not_le hh
      have h2 := hwf.2.1
      omega

/-- C2 (witness): concrete complete decode of `mA` in a 20-byte file: the
returned byte count is 20, the member's on-disk length. -/
theorem c2_witness :
    memberWF mA ∧
      (get_header_for_zstream mA 20 20 0).outcome = some (Except.ok (20, true)) ∧
      (20 : Nat) = mA.compLen :=
  ⟨by decide, by decide,
    c2_total_in_is_member_length mA 20 20 0 20 (by decide) (by decide)⟩

/-- C3 (counterexample): the scanner has no zero-consumption check.  Fed a
`consume` that returns 0 consumed bytes at every offset (on a 1-byte file),
`main`'s loop neither exits fatally (`some (Except.error _)`) nor finishes
(`some (Except.ok _)`): after 100 iterations it is still looping at offset 0,
so a returned 0 is not "treated as a fatal invariant violation". -/
theorem c3_counterexample :
    scanLoop (fun _ => some (Except.ok 0)) 1 100 0 = none := by decide

/-- C3 (amended): `main` performs no zero-consumption check (see the
counterexample), but `get_header_for_zstream` can never return 0: on any file
made of well-formed members it either exits fatally or returns a byte count
`r` with `1 ≤ r` and `pos + r ≤ fileLength`, so the scan loop always advances
and terminates (never hangs) on every such input. -/
theorem c3_no_zero_consumption (ms : List GzMember)
    (hwf : ∀ m ∈ ms, memberWF m) :
    (∀ pos r, consumeOfFile ms (fileLen ms) pos = some (Except.ok r) →
      1 ≤ r ∧ pos + r ≤ fileLen ms) ∧
      scanModel ms ≠ none := by
  refine ⟨fun pos r h => consumeOfFile_ok_bounds ms (fileLen ms) pos r hwf h, ?_⟩
  unfold scanModel
  refine scanLoop_total (consumeOfFile ms (fileLen ms)) (fileLen ms) ?_
    (fileLen ms + 1) 0 (Nat.zero_le _) (by omega)
  intro pos hpos
  exact ⟨consumeOfFile_total ms (fileLen ms) pos (by omega),
    fun r hr => consumeOfFile_ok_bounds ms (fileLen ms) pos r hwf hr⟩

/-- C3 (witness): on the concrete single-member file `[mA]` the scan
terminates. -/
theorem c3_witness :
    (∀ m ∈ [mA], memberWF m) ∧ scanModel [mA] ≠ none := by
  have h1 : ∀ m ∈ [mA], memberWF m := by decide
  exact ⟨h1, (c3_no_zero_consumption [mA] h1).2⟩

/-- C4 (counterexample): the claim fails as stated.  On the 5-byte truncation
of a valid gzip file (member `mA`, whose header is 10 bytes), the header
decode consumes all 5 bytes, returns `Z_OK`, and the per-member header report
lines ARE printed (with `done = 0`, "Header is incomplete."); only then does
the program die, and with the body-loop code `Z_BUF_ERROR` (-5), not with the
empty-read `Z_DATA_ERROR` exit and not at the header-parse `exit(ret)`. -/
theorem c4_counterexample :
    (get_header_for_zstream mA 5 5 0).report = some ⟨none, none, 0⟩ ∧
      (get_header_for_zstream mA 5 5 0).outcome =
        some (Except.error Z_BUF_ERROR) :=
  ⟨by decide, by decide⟩

/-- C4 (amended): for any input file that is a valid gzip file truncated to
its first 5 bytes, the member's header report lines are printed with
`headerStatus` INCOMPLETE (`done = 0`, with no time or name captured), and the
program then exits fatally with the engine's `Z_BUF_ERROR` code from the
boundary-location loop — the failure happens after, not before, the header
report, and no member end position is ever reported. -/
theorem c4_truncated_header (m : GzMember)
    (h5 : 5 < m.hlen) (hc : m.hlen ≤ m.compLen) :
    (get_header_for_zstream m 5 5 0).report = some ⟨none, none, 0⟩ ∧
      (get_header_for_zstream m 5 5 0).outcome =
        some (Except.error Z_BUF_ERROR) := by
  have hn : ¬ min 5 (5 - 0) = 0 := by decide
  have hh : ¬ m.hlen ≤ min 5 (5 - 0) := by
    have : min 5 (5 - 0) = 5 := by decide
    omega
  rw [gh_eq_part m 5 5 0 hn hh]
  refine ⟨rfl, ?_⟩
  dsimp only
  rw [(by decide : min 5 (5 - 0) = 5)]
  have hz : infCons m 5 0 (OUTBUF_MULT * 5) = 0 := by
    unfold infCons
    rw [(by simp : min 0 (m.compLen - 5) = 0)]
    rfl
  have hEnd : ¬ 5 + infCons m 5 0 (OUTBUF_MULT * 5) = m.compLen := by omega
  have hret : (inflateRun m 5 0 (OUTBUF_MULT * 5)).ret = Z_BUF_ERROR := by
    rw [inflateRun_eq_buf m 5 0 (OUTBUF_MULT * 5) hEnd hz]
  have h0 : (inflateRun m 5 0 (OUTBUF_MULT * 5)).ret < 0 := by
    rw [hret]
    decide
  rw [← hret]
  exact ghLoop_step_err m 5 5 6 5 0 (OUTBUF_MULT * 5) (0 + 5) h0

/-- C4 (witness): the amended behaviour on the concrete member `mB` truncated
to 5 bytes. -/
theorem c4_witness :
    5 < mB.hlen ∧ mB.hlen ≤ mB.compLen ∧
      (get_header_for_zstream mB 5 5 0).report = some ⟨none, none, 0⟩ ∧
      (get_header_for_zstream mB 5 5 0).outcome =
        some (Except.error Z_BUF_ERROR) := by
  have h := c4_truncated_header mB (by decide) (by decide)
  exact ⟨by decide, by decide, h.1, h.2⟩

/-- C5: for every member whose header is decoded (enough buffered input to
cover the whole header): if FNAME is unset the reported name is absent; if it
is set, the reported name is exactly the stored bytes truncated to the
511-byte capture bound `name_max = STR_LEN - 1` — the full stored name when it
fits, and otherwise a clean prefix of it (truncated, not corrupted). -/
theorem c5_name_field (m : GzMember) (filesize F s : Nat)
    (hh0 : 0 < m.hlen) (hn1 : m.hlen ≤ min filesize (F - s)) :
    ∃ rep, (get_header_for_zstream m filesize F s).report = some rep ∧
      (m.fnameFlag = false → rep.name = none) ∧
      (m.fnameFlag = true →
        rep.name = some (m.nameBytes.take name_max) ∧
        (m.nameBytes.length ≤ name_max → rep.name = some m.nameBytes) ∧
        (∃ t, m.nameBytes = m.nameBytes.take name_max ++ t)) := by
  have hn : ¬ min filesize (F - s) = 0 := by omega
  rw [gh_eq_full m filesize F s hn hn1]
  refine ⟨_, rfl, ?_, ?_⟩
  · intro hf
    simp [hf]
  · intro hf
    refine ⟨by simp [hf], ?_, ?_⟩
    · intro hlen
      simp [hf, List.take_of_length_le hlen]
    · exact ⟨m.nameBytes.drop name_max,
        (List.take_append_drop name_max m.nameBytes).symm⟩

/-- C5 (witness): concrete decode of `mA` (FNAME set, 3-byte name, fully
captured). -/
theorem c5_witness :
    0 < mA.hlen ∧ mA.hlen ≤ min 20 (20 - 0) ∧
      ∃ rep, (get_header_for_zstream mA 20 20 0).report = some rep ∧
        (mA.fnameFlag = false → rep.name = none) ∧
        (mA.fnameFlag = true →
          rep.name = some (mA.nameBytes.take name_max) ∧
          (mA.nameBytes.length ≤ name_max → rep.name = some mA.nameBytes) ∧
          (∃ t, mA.nameBytes = mA.nameBytes.take name_max ++ t)) :=
  ⟨by decide, by decide, c5_name_field mA 20 20 0 (by decide) (by decide)⟩

/-- C6: for every member with a well-formed gzip header whose first buffered
read covers the whole header, the reported header is complete: `done = 1`
("Header is complete."), with the modification time and captured name
populated. -/
theorem c6_done_complete (m : GzMember) (filesize F s : Nat)
    (hh0 : 0 < m.hlen) (hn1 : m.hlen ≤ min filesize (F - s)) :
    (get_header_for_zstream m filesize F s).report =
      some ⟨some m.mtime,
            if m.fnameFlag then some (m.nameBytes.take name_max) else none,
            1⟩ := by
  have hn : ¬ min filesize (F - s) = 0 := by omega
  rw [gh_eq_full m filesize F s hn hn1]

/-- C6 (witness): concrete decode of `mB` reports a complete header. -/
theorem c6_witness :
    0 < mB.hlen ∧ mB.hlen ≤ min 15 (15 - 0) ∧
      (get_header_for_zstream mB 15 15 0).report =
        some ⟨some mB.mtime,
              if mB.fnameFlag then some (mB.nameBytes.take name_max) else none,
              1⟩ :=
  ⟨by decide, by decide, c6_done_complete mB 15 15 0 (by decide) (by decide)⟩

/-- C7: the process exit code is 1 when the input file cannot be opened; the
engine's own (negative, hence non-zero) error code when a fatal decode
condition ends the scan; and otherwise — after a successful scan with at least
one member — the consumed-byte count of the last member, cast to a process
exit code. -/
theorem c7_exit_codes (openOk : Bool) (ms : List GzMember) :
    (openOk = false → mainModel openOk ms = MainOut.exited 1) ∧
      (∀ e, openOk = true → scanModel ms = some (Except.error e) →
        mainModel openOk ms = MainOut.exited e ∧ e < 0) ∧
      (∀ recs rec, openOk = true → scanModel ms = some (Except.ok recs) →
        recs.getLast? = some rec →
        mainModel openOk ms = MainOut.returned (some (rec.consumed : Int))) := by
  refine ⟨?_, ?_, ?_⟩
  · intro h
    unfold mainModel
    rw [if_pos h]
  · intro e hopen hscan
    constructor
    · unfold mainModel
      rw [if_neg (by simp [hopen])]
      rw [hscan]
    · unfold scanModel at hscan
      exact scanLoop_error_neg (consumeOfFile ms (fileLen ms)) (fileLen ms)
        (fun pos e' h' => consumeOfFile_error_neg ms (fileLen ms) pos e' h')
        (fileLen ms + 1) 0 e hscan
  · intro recs rec hopen hscan hlast
    unfold mainModel
    rw [if_neg (by simp [hopen])]
    rw [hscan]
    dsimp only
    unfold lastConsumed
    rw [hlast]

/-- C7 (witness): concretely, a failed open exits 1 and a successful
single-member scan returns the last (only) member's 20 consumed bytes. -/
theorem c7_witness :
    mainModel false [mA] = MainOut.exited 1 ∧
      scanModel [mA] = some (Except.ok (memberRecs 0 [mA])) ∧
      (memberRecs 0 [mA]).getLast? = some ⟨0, 20, 20, 19⟩ ∧
      mainModel true [mA] = MainOut.returned (some 20) := by
  have hscan : scanModel [mA] = some (Except.ok (memberRecs 0 [mA])) := by decide
  have hlast : (memberRecs 0 [mA]).getLast? = some ⟨0, 20, 20, 19⟩ := by decide
  refine ⟨(c7_exit_codes false [mA]).1 rfl, hscan, hlast, ?_⟩
  exact (c7_exit_codes true [mA]).2.2 (memberRecs 0 [mA]) ⟨0, 20, 20, 19⟩ rfl
    hscan hlast

/-- C8: for an empty input file (length 0) the scan loop body never runs, no
member is reported, and `main` returns with `ret` never assigned — modelled as
`MainOut.returned none`, the read of an uninitialized variable. -/
theorem c8_empty_file :
    fileLen [] = 0 ∧ scanModel [] = some (Except.ok []) ∧
      mainModel true [] = MainOut.returned none :=
  ⟨rfl, rfl, rfl⟩

/-- C9: in every completed scan, each reported record has its internal cursor
for the next member at `start + consumed` (the `fseek` target) while the
printed "end of member" value is `start + consumed - 1`, the inclusive index
of the member's last byte; and consecutive records chain at exactly those
cursor values. -/
theorem c9_end_positions (consume : Nat → Option (Except Int Nat))
    (F fuel pos : Nat) (recs : List ScanRec)
    (h : scanLoop consume F fuel pos = some (Except.ok recs)) :
    chainNextB pos recs = true ∧
      ∀ rec ∈ recs, rec.next = rec.start + rec.consumed ∧
        rec.printedEnd = (rec.start : Int) + (rec.consumed : Int) - 1 :=
  scanLoop_shape consume F fuel pos recs h

/-- C9 (witness): a concrete two-iteration scan with its printed end
positions 4 and 9 for members `[0, 5)` and `[5, 10)`. -/
theorem c9_witness :
    scanLoop (fun _ => some (Except.ok 5)) 10 11 0 =
        some (Except.ok [⟨0, 5, 5, 4⟩, ⟨5, 5, 10, 9⟩]) ∧
      chainNextB 0 [⟨0, 5, 5, 4⟩, ⟨5, 5, 10, 9⟩] = true ∧
      ∀ rec ∈ [(⟨0, 5, 5, 4⟩ : ScanRec), ⟨5, 5, 10, 9⟩],
        rec.next = rec.start + rec.consumed ∧
        rec.printedEnd = (rec.start : Int) + (rec.consumed : Int) - 1 := by
  have h : scanLoop (fun _ => some (Except.ok 5)) 10 11 0 =
      some (Except.ok [⟨0, 5, 5, 4⟩, ⟨5, 5, 10, 9⟩]) := by decide
  have h2 := c9_end_positions (fun _ => some (Except.ok 5)) 10 11 0 _ h
  exact ⟨h, h2.1, h2.2⟩

/-- C10: a single `inflate` call during boundary location can produce at most
`OUTBUF_MULT * filesize` output bytes; and when a call stops short of the
member's end with `Z_OK` (output budget exhausted) and the next read yields
zero bytes, the loop exits without `Z_STREAM_END` (final flag `false`) and
without any error, returning only the input bytes consumed so far — strictly
less than the member's true on-disk length. -/
theorem c10_output_budget (m : GzMember)
    (filesize F fuel pos availIn cursor p a : Nat)
    (hpos : pos ≤ m.compLen)
    (hret : (inflateRun m pos availIn (OUTBUF_MULT * filesize)).ret = Z_OK)
    (heof : F ≤ cursor) :
    (inflateRun m p a (OUTBUF_MULT * filesize)).produced ≤
        OUTBUF_MULT * filesize ∧
      ghLoop m filesize F (fuel + 1) pos availIn (OUTBUF_MULT * filesize) cursor =
        some (Except.ok
          (pos + (inflateRun m pos availIn (OUTBUF_MULT * filesize)).consumed,
            false)) ∧
      pos + (inflateRun m pos availIn (OUTBUF_MULT * filesize)).consumed <
        m.compLen := by
  have hn : min filesize (F - cursor) = 0 := by omega
  refine ⟨inflateRun_produced_le m p a (OUTBUF_MULT * filesize), ?_, ?_⟩
  · exact ghLoop_step_break m filesize F fuel pos availIn
      (OUTBUF_MULT * filesize) cursor hret hn
  · have hne := (inflateRun_ok m pos availIn (OUTBUF_MULT * filesize) hret).2
    have hle := inflateRun_pos_le m pos availIn (OUTBUF_MULT * filesize) hpos
    omega

/-- C10 (witness): concretely, on `mBig` (30 bytes on disk, 400 bytes of
output against a 150-byte budget) the call from position 10 consumes only 7
bytes with `Z_OK`; at end of file the loop then returns 17 < 30 without
`Z_STREAM_END` and without error. -/
theorem c10_witness :
    (10 : Nat) ≤ mBig.compLen ∧
      (inflateRun mBig 10 20 (OUTBUF_MULT * 30)).ret = Z_OK ∧
      (30 : Nat) ≤ 30 ∧
      ((inflateRun mBig 0 30 (OUTBUF_MULT * 30)).produced ≤ OUTBUF_MULT * 30 ∧
        ghLoop mBig 30 30 (4 + 1) 10 20 (OUTBUF_MULT * 30) 30 =
          some (Except.ok
            (10 + (inflateRun mBig 10 20 (OUTBUF_MULT * 30)).consumed, false)) ∧
        10 + (inflateRun mBig 10 20 (OUTBUF_MULT * 30)).consumed < mBig.compLen) :=
  ⟨by decide, by decide, by decide,
    c10_output_budget mBig 30 30 4 10 20 30 0 30 (by decide) (by decide)
      (by decide)⟩

end PrintGZHeader
